import Mathlib

/-!
Verification of the pygraphdb graph-data layer (`src/graphdb.py`) against its
natural-language specification.

Shallow-embedding conventions:

* The backend key-value store (`src/kvstores.py`) is an external collaborator
  (spec section 4.2): it is modelled as three finite association maps (nodes,
  edges, adjacency) with point get/put/delete semantics, keyed by the id
  strings the GraphDB layer passes down.
* The byte codec (`src/serializers.py`) is likewise external and contractually
  an inverse pair (spec section 4.1), so stored bytes are modelled by the
  deserialized Python value itself: the `to_dict` image of a Node/Edge, and
  the `\x7bsource,target\x7d` dictionary for adjacency records.
* Python `None` endpoints of an `Edge` are modelled as `Option.none`;
  `Edge.to_dict` returning `Option.none` models the `AttributeError` raised by
  `None.get_id` in `graphdb.py` line 54.
* Operations that can raise model the outcome as `Except St St`: `.ok st`
  is normal return with final state `st`, `.error st` is an escaped Python
  exception that left the store in state `st`.
* Python `list(set(xs))` (whose element order is unspecified) is modelled by
  `xs.dedup`; only set-level facts are ever claimed about such values.
-/

/-- Property mapping of a node or edge.  The spec leaves the value type open;
a flat string-to-string association list stands in for it, since no claim
inspects the values beyond equality. -/
def Props := List (String × String)
deriving DecidableEq, Repr, Inhabited

/-- `Node` value (`graphdb.py` lines 14-35): identity plus properties.
`to_dict`/`from_dict` are mutually inverse on this representation, so the
stored record is the node itself. -/
structure NodeD where
  id : String
  properties : Props
deriving DecidableEq, Repr

/-- `Edge` value (`graphdb.py` lines 37-65).  Endpoints hold a node id or
Python `None` (as produced by `update_edge` on a missing id). -/
structure EdgeD where
  id : String
  source : Option String
  target : Option String
  properties : Props
deriving DecidableEq, Repr

/-- The `Edge.to_dict` image: the persisted edge record, with both endpoints
resolved to id strings. -/
structure EdgeRec where
  id : String
  source : String
  target : String
  properties : Props
deriving DecidableEq, Repr

/-- `Edge.to_dict` (`graphdb.py` lines 50-57).  A `None` endpoint hits
`self.source.get_id` on `None` and raises `AttributeError`, modelled as
`Option.none`. -/
def EdgeD.to_dict : EdgeD → Option EdgeRec
  | ⟨i, some s, some t, p⟩ => some ⟨i, s, t, p⟩
  | _ => none

/-- `Edge.from_dict` (`graphdb.py` lines 59-65). -/
def EdgeRec.from_dict (r : EdgeRec) : EdgeD :=
  ⟨r.id, some r.source, some r.target, r.properties⟩

/-- Persisted adjacency record: the Python dictionary with optional
`source` and `target` keys, each holding a list of edge ids.
`put_edge` creates records with a single key, so key absence matters. -/
structure AdjRec where
  source : Option (List String)
  target : Option (List String)
deriving DecidableEq, Repr

/-- Association-map lookup (backend point `get`; absent key returns
Python `None`). -/
def mget {α : Type} : List (String × α) → String → Option α
  | [], _ => none
  | (k', v) :: r, k => if k' = k then some v else mget r k

/-- Association-map store (backend point `put`; replaces an existing binding
in place, like a Python/LMDB upsert). -/
def mput {α : Type} : List (String × α) → String → α → List (String × α)
  | [], k, v => [(k, v)]
  | (k', v') :: r, k, v => if k' = k then (k, v) :: r else (k', v') :: mput r k v

/-- Association-map delete (backend point `delete`; absent key is a no-op). -/
def mdel {α : Type} (m : List (String × α)) (k : String) : List (String × α) :=
  m.filter (fun p => ¬ p.1 = k)

/-- Backend state: the three partitions (`nodes`, `edges`, `adj`) of the
key-value store, as seen through the codec. -/
structure St where
  nodes : List (String × NodeD)
  edges : List (String × EdgeRec)
  adj   : List (String × AdjRec)
deriving DecidableEq, Repr

/-- The freshly-opened store: every partition empty. -/
def emptySt : St := ⟨[], [], []⟩

/-- `GraphDB.put_node` (`graphdb.py` lines 121-123): serialize and store under
`node.get_id`. -/
def put_node (st : St) (n : NodeD) : St :=
  { st with nodes := mput st.nodes n.id n }

/-- `GraphDB.get_node` (`graphdb.py` lines 125-132): absent key yields Python
`None`. -/
def get_node (st : St) (nodeId : String) : Option NodeD :=
  mget st.nodes nodeId

/-- `GraphDB.delete_node` (`graphdb.py` lines 134-135). -/
def delete_node (st : St) (nodeId : String) : St :=
  { st with nodes := mdel st.nodes nodeId }

/-- The two roles of the `put_edge` adjacency loop: the `dict_flag` values
`source` and `target` (`graphdb.py` line 148). -/
inductive Role
  | source
  | target
deriving DecidableEq, Repr

/-- One iteration of the `put_edge` adjacency loop (`graphdb.py` lines
148-157): fetch the endpoint's record; if absent create a one-key record,
otherwise `setdefault(dict_flag, []).append(edge_id)` and write back. -/
def putEdgeAdjStep (st : St) (role : Role) (ioNode : String) (edgeId : String) : St :=
  match mget st.adj ioNode with
  | none =>
    let newRec : AdjRec :=
      match role with
      | .source => ⟨some [edgeId], none⟩
      | .target => ⟨none, some [edgeId]⟩
    { st with adj := mput st.adj ioNode newRec }
  | some a =>
    let a' : AdjRec :=
      match role with
      | .source => { a with source := some (a.source.getD [] ++ [edgeId]) }
      | .target => { a with target := some (a.target.getD [] ++ [edgeId]) }
    { st with adj := mput st.adj ioNode a' }

/-- `GraphDB.put_edge` (`graphdb.py` lines 140-157): serialize (which raises
on a `None` endpoint, leaving the store untouched), store the edge record,
then — when `update_adjacency` — run the adjacency loop first for the source
role, then for the target role. -/
def put_edge (st : St) (e : EdgeD) (updateAdjacency : Bool := true) : Except St St :=
  match e.to_dict with
  | none => .error st
  | some r =>
    let st1 : St := { st with edges := mput st.edges e.id r }
    if updateAdjacency then
      .ok (putEdgeAdjStep (putEdgeAdjStep st1 .source r.source e.id) .target r.target e.id)
    else
      .ok st1

/-- `GraphDB.get_edge` (`graphdb.py` lines 159-164): deserialize through
`Edge.from_dict`; absent key yields Python `None`. -/
def get_edge (st : St) (edgeId : String) : Option EdgeD :=
  (mget st.edges edgeId).map EdgeRec.from_dict

/-- `GraphDB.get_adjacency_list` (`graphdb.py` lines 257-283) with
`return_raw=False`.  The `direction` argument is an arbitrary string, compared
against the three recognized values; an unrecognized direction with a stored
record falls off the end of the function and returns Python `None`
(`Option.none` here).  `list(set(_s).union(set(_t)))` is modelled as
deduplicated concatenation. -/
def get_adjacency_list (st : St) (nodeId : String) (direction : String) :
    Option (List String) :=
  match mget st.adj nodeId with
  | none => some []
  | some a =>
    if direction = "forward" then some (a.target.getD [])
    else if direction = "backward" then some (a.source.getD [])
    else if direction = "any" then some ((a.source.getD [] ++ a.target.getD []).dedup)
    else none

/-- `GraphDB.get_adjacency_list` with `return_raw=True`, as used by
`_remove_edge_from_adjacency`: the raw stored record, or Python's empty list
`[]` when absent (whose key-containment checks behave exactly like an empty
record, so absence is `Option.none` here). -/
def get_adjacency_raw (st : St) (nodeId : String) : Option AdjRec :=
  mget st.adj nodeId

/-- `GraphDB.put_adjacency_list` (`graphdb.py` lines 285-288): store the
(raw dictionary) adjacency value for a node. -/
def put_adjacency_list (st : St) (nodeId : String) (a : AdjRec) : St :=
  { st with adj := mput st.adj nodeId a }

/-- `GraphDB._remove_edge_from_adjacency` (`graphdb.py` lines 313-322): for
each of the `source` and `target` keys present in the record, remove the
*first* occurrence of `edge_id` (Python `list.remove`) when it is contained;
write the record back only if something changed. -/
def remove_edge_from_adjacency (st : St) (nodeId : String) (edgeId : String) : St :=
  match get_adjacency_raw st nodeId with
  | none => st
  | some a =>
    let sc : Bool := match a.source with
      | some l => decide (edgeId ∈ l)
      | none => false
    let a1 : AdjRec :=
      match a.source with
      | some l => if edgeId ∈ l then { a with source := some (l.erase edgeId) } else a
      | none => a
    let tc : Bool := match a1.target with
      | some l => decide (edgeId ∈ l)
      | none => false
    let a2 : AdjRec :=
      match a1.target with
      | some l => if edgeId ∈ l then { a1 with target := some (l.erase edgeId) } else a1
      | none => a1
    if sc || tc then put_adjacency_list st nodeId a2 else st

/-- `GraphDB.delete_edge` (`graphdb.py` lines 293-311): absent edge is a
no-op; otherwise remove the id from the source's adjacency, from the target's
adjacency when the endpoints differ, then delete the edge record. -/
def delete_edge (st : St) (edgeId : String) : St :=
  match mget st.edges edgeId with
  | none => st
  | some r =>
    let st1 := remove_edge_from_adjacency st r.source edgeId
    let st2 := if r.target ≠ r.source then remove_edge_from_adjacency st1 r.target edgeId else st1
    { st2 with edges := mdel st2.edges edgeId }

/-- `GraphDB.update_node` (`graphdb.py` lines 186-199): fetch, synthesize an
empty node on a miss, merge properties, persist, and return the node.
(For the empty-string id Python would substitute a fresh UUID via
`node_id or str(uuid.uuid4())`; claims only use caller-supplied nonempty
ids.) -/
def update_node (st : St) (nodeId : String) (newData : Props)
    (mergeFunc : Props → Props → Props) : St × NodeD :=
  let oldNode : NodeD :=
    match get_node st nodeId with
    | none => ⟨nodeId, []⟩
    | some n => n
  let merged := mergeFunc oldNode.properties newData
  let n' : NodeD := { oldNode with properties := merged }
  (put_node st n', n')

/-- `GraphDB.update_edge` (`graphdb.py` lines 201-213): fetch, synthesize an
edge with `None` endpoints on a miss, merge properties, persist via
`put_edge` (whose serialization raises on the `None` endpoints). -/
def update_edge (st : St) (edgeId : String) (newData : Props)
    (mergeFunc : Props → Props → Props) : Except St (St × EdgeD) :=
  let oldEdge : EdgeD :=
    match get_edge st edgeId with
    | none => ⟨edgeId, none, none, []⟩
    | some e => e
  let e' : EdgeD := { oldEdge with properties := mergeFunc oldEdge.properties newData }
  match put_edge st e' with
  | .error s => .error s
  | .ok s => .ok (s, e')

/-- Per-node accumulator entry of `put_edges_bulk` (`graphdb.py` line 368):
`setdefault` initializes both role lists, so both are always present. -/
structure AccRec where
  source : List String
  target : List String
deriving DecidableEq, Repr

/-- One edge's contribution to the bulk adjacency accumulator
(`graphdb.py` lines 368-371): append the edge id to the source node's
`source` list and the target node's `target` list. -/
def accumAdd (m : List (String × AccRec)) (r : EdgeRec) : List (String × AccRec) :=
  let m1 : List (String × AccRec) :=
    match mget m r.source with
    | none => mput m r.source ⟨[r.id], []⟩
    | some a => mput m r.source { a with source := a.source ++ [r.id] }
  match mget m1 r.target with
  | none => mput m1 r.target ⟨[], [r.id]⟩
  | some a => mput m1 r.target { a with target := a.target ++ [r.id] }

/-- Serialization pass of `put_edges_bulk` (`graphdb.py` lines 364-366):
every edge is encoded before anything is written, so a `None` endpoint
raises with the store untouched. -/
def allToDict : List EdgeD → Option (List EdgeRec)
  | [] => some []
  | e :: es =>
    match e.to_dict with
    | none => none
    | some er => (allToDict es).map (fun rs => er :: rs)

/-- The adjacency value `put_edges_bulk` computes for a node with no prior
record (`graphdb.py` lines 387, 395-402): the union starts from empty sets,
and `list(set(...))` is modelled as `dedup`. -/
def bulkNewRec (acc : AccRec) : AdjRec :=
  ⟨some acc.source.dedup, some acc.target.dedup⟩

/-- `GraphDB.put_edges_bulk` (`graphdb.py` lines 358-406).  After the batch
edge write, the adjacency loop deserializes each affected node's existing
record; a present record holds Python *lists* (every write path stores
lists), and `old_edges['source'].union(...)` on a list raises
`AttributeError` (`graphdb.py` lines 395-400) before any adjacency write
(the batch `put_adjacency_bulk` happens only after the loop).  So the call
succeeds exactly when no affected node has a prior adjacency record, and on
failure the edges are persisted but the adjacency partition is untouched. -/
def put_edges_bulk (st : St) (edges : List EdgeD) : Except St St :=
  match allToDict edges with
  | none => .error st
  | some recs =>
    let st1 : St := { st with edges := recs.foldl (fun m er => mput m er.id er) st.edges }
    let accum := recs.foldl accumAdd []
    if accum.all (fun p => (mget st1.adj p.1).isNone) then
      .ok { st1 with adj := accum.foldl (fun m p => mput m p.1 (bulkNewRec p.2)) st1.adj }
    else
      .error st1

/-- Outcome of `GraphDB.bfs`: a result list, the `TypeError` raised by
iterating the `None` returned for an unrecognized direction, or fuel
exhaustion (shown unreachable with the chosen fuel). -/
inductive BfsOut
  | res (l : List String)
  | tyErr
  | fuelOut
deriving DecidableEq, Repr

/-- Edge loop of `GraphDB.bfs` (`graphdb.py` lines 346-354) for one popped
node: resolve each adjacency edge id, skip silently when the edge record is
missing, compute the neighbor as `target` when `source == current` else
`source`, and keep it only when not yet visited (`visited.add(current)`
precedes the loop, so the filter is against `visited ∪ \x7bcurrent\x7d`). -/
def bfsExpand (st : St) (current : String) (visitedP : List String)
    (el : List String) : List String :=
  el.filterMap (fun eId =>
    match mget st.edges eId with
    | none => none
    | some er =>
      let nb := if er.source = current then er.target else er.source
      if nb ∈ visitedP then none else some nb)

/-- Loop of `GraphDB.bfs` (`graphdb.py` lines 332-356), with explicit
fuel: pop a node, skip it when visited, otherwise mark it visited, append it
to the result, and enqueue its unvisited neighbors. -/
def bfsAux (st : St) (direction : String) :
    Nat → List String → List String → List String → BfsOut
  | 0, _, _, _ => .fuelOut
  | _ + 1, [], _, acc => .res acc
  | fuel + 1, current :: rest, visited, acc =>
    if current ∈ visited then
      bfsAux st direction fuel rest visited acc
    else
      match get_adjacency_list st current direction with
      | none => .tyErr
      | some el =>
        bfsAux st direction fuel
          (rest ++ bfsExpand st current (current :: visited) el)
          (current :: visited) (acc ++ [current])

/-- Length of the edge list `bfs` iterates for a node (empty when the
adjacency record is absent or the direction is unrecognized). -/
def adjLen (st : St) (direction : String) (n : String) : Nat :=
  ((get_adjacency_list st n direction).getD []).length

/-- The node ids carrying adjacency records, without duplicates. -/
def adjKeys (st : St) : List String :=
  (st.adj.map Prod.fst).dedup

/-- Upper bound on the number of queue pops `bfsAux` still performs:
current queue length plus the edge-list lengths of all unvisited indexed
nodes (each can be expanded at most once). -/
def bfsMeasure (st : St) (direction : String) (queue visited : List String) : Nat :=
  queue.length +
    (((adjKeys st).filter (fun n => ¬ n ∈ visited)).map (adjLen st direction)).sum

/-- `GraphDB.bfs` (`graphdb.py` lines 327-356): queue seeded with the start
node, empty visited set and result; the fuel strictly dominates the pop
count, so `fuelOut` is unreachable. -/
def bfs (st : St) (startNodeId : String) (direction : String := "any") : BfsOut :=
  bfsAux st direction (bfsMeasure st direction [startNodeId] [] + 1) [startNodeId] [] []

/-- One-step neighbor list of a node, exactly as the `bfs` edge loop computes
it before the visited filter: resolve each adjacency edge id, skip missing
edges, and take the endpoint on the far side of `current`. -/
def bfsNeighbors (st : St) (direction : String) (current : String) : List String :=
  ((get_adjacency_list st current direction).getD []).filterMap (fun eId =>
    (mget st.edges eId).map (fun er =>
      if er.source = current then er.target else er.source))

/-- Closure of the `bfsNeighbors` step relation over a visited set `v` and a
frontier `q`: the set of nodes a breadth-first traversal with that internal
state will have visited on termination. -/
inductive ReachVQ (st : St) (direction : String) (v q : List String) : String → Prop
  | base_vis {x} : x ∈ v → ReachVQ st direction v q x
  | base_frontier {x} : x ∈ q → ReachVQ st direction v q x
  | step {x y} : ReachVQ st direction v q x → y ∈ bfsNeighbors st direction x →
      ReachVQ st direction v q y

/-- A node is reachable from `start` under `direction` when it lies in the
closure of the traversal step relation seeded with `start` alone. -/
def Reachable (st : St) (direction : String) (start : String) (n : String) : Prop :=
  ReachVQ st direction [] [start] n

/-- State left behind by a Python call whether it returned or raised. -/
def exceptState : Except St St → St
  | .ok s => s
  | .error s => s

/-- Whether a Python call raised (escaped with an exception). -/
def raised : Except St St → Bool
  | .error _ => true
  | .ok _ => false

/-- The edge-mutating operations of claim C3. -/
inductive Op
  | opPutEdge (e : EdgeD)
  | opPutEdgesBulk (es : List EdgeD)
  | opDeleteEdge (i : String)
deriving DecidableEq, Repr

/-- Execute one operation against the store, keeping the state an escaped
exception leaves behind. -/
def runOp (st : St) : Op → St
  | .opPutEdge e => exceptState (put_edge st e)
  | .opPutEdgesBulk es => exceptState (put_edges_bulk st es)
  | .opDeleteEdge i => delete_edge st i

/-- Execute a sequence of operations in order. -/
def runOps (st : St) (ops : List Op) : St :=
  ops.foldl runOp st

/-- Outgoing edge-id list of a node's adjacency record: the list stored under
the record's `source` key (edges for which the node is the source). -/
def outgoingIds (st : St) (n : String) : List String :=
  ((mget st.adj n).bind (fun a => a.source)).getD []

/-- Incoming edge-id list of a node's adjacency record: the list stored under
the record's `target` key (edges for which the node is the target). -/
def incomingIds (st : St) (n : String) : List String :=
  ((mget st.adj n).bind (fun a => a.target)).getD []

/-- The adjacency invariant of claim C3 and spec section 3: every persisted
edge is indexed under its source's outgoing set and its target's incoming
set. -/
def adjInvariant (st : St) : Prop :=
  ∀ i er, mget st.edges i = some er →
    i ∈ outgoingIds st er.source ∧ i ∈ incomingIds st er.target

/-- First-occurrence removal of an edge id from both role lists of an
adjacency record (no-op on an absent key or an uncontained id) — the net
effect of `_remove_edge_from_adjacency` on the record. -/
def eraseAdj (a : AdjRec) (edgeId : String) : AdjRec :=
  ⟨a.source.map (fun l => l.erase edgeId), a.target.map (fun l => l.erase edgeId)⟩

/-- Concrete edge a→b used by the concrete evaluations below. -/
def edgeAB : EdgeD := ⟨"e1", some "a", some "b", []⟩

/-- Concrete edge a→c used by the concrete evaluations below. -/
def edgeAC : EdgeD := ⟨"e2", some "a", some "c", []⟩

/-- Concrete edge b→c used by the concrete evaluations below. -/
def edgeBC : EdgeD := ⟨"e3", some "b", some "c", []⟩

/-- Store holding the single edge a→b, written through `put_edge`. -/
def stOneEdge : St := exceptState (put_edge emptySt edgeAB)

/-- Store where the same edge a→b was written twice through `put_edge`,
leaving duplicate ids in both endpoints' adjacency lists. -/
def stDup : St := exceptState (put_edge stOneEdge edgeAB)

/-- Triangle store: edges a→b, b→c, a→c written through `put_edge`. -/
def stTriangle : St :=
  exceptState (put_edge (exceptState (put_edge stOneEdge edgeBC)) edgeAC)

-- ===================== Supporting lemmas =====================

theorem mget_mput_self {α : Type} (m : List (String × α)) (k : String) (v : α) :
    mget (mput m k v) k = some v := by
  induction m with
  | nil => simp [mget, mput]
  | cons p r ih =>
    by_cases h : p.1 = k
    · simp [mput, mget, h]
    · simp [mput, mget, h, ih]

theorem mget_mput_ne {α : Type} (m : List (String × α)) {k k' : String} (v : α)
    (h : k ≠ k') : mget (mput m k v) k' = mget m k' := by
  induction m with
  | nil => simp [mget, mput, h]
  | cons p r ih =>
    by_cases hp : p.1 = k
    · simp [mput, mget, hp, h]
    · by_cases hp' : p.1 = k'
      · simp [mput, mget, hp, hp', Ne.symm h]
      · simp [mput, mget, hp, hp', ih]

theorem mget_mdel_self {α : Type} (m : List (String × α)) (k : String) :
    mget (mdel m k) k = none := by
  induction m with
  | nil => simp [mget, mdel]
  | cons p r ih =>
    by_cases h : p.1 = k
    · simpa [mdel, h] using ih
    · simpa [mdel, mget, h] using ih

theorem mget_mdel_ne {α : Type} (m : List (String × α)) {k k' : String}
    (h : k ≠ k') : mget (mdel m k) k' = mget m k' := by
  induction m with
  | nil => simp [mget, mdel]
  | cons p r ih =>
    by_cases hp : p.1 = k
    · rw [show mdel (p :: r) k = mdel r k by simp [mdel, List.filter_cons, hp]]
      rw [ih]
      have hpk : p.1 ≠ k' := by rw [hp]; exact h
      simp [mget, hpk]
    · by_cases hp' : p.1 = k'
      · simp [mdel, mget, List.filter_cons, hp, hp', Ne.symm h]
      · simpa [mdel, mget, List.filter_cons, hp, hp'] using ih

theorem gal_forward (st : St) (n : String) :
    get_adjacency_list st n "forward" = some (incomingIds st n) := by
  unfold get_adjacency_list incomingIds
  cases h : mget st.adj n <;> simp

theorem gal_backward (st : St) (n : String) :
    get_adjacency_list st n "backward" = some (outgoingIds st n) := by
  unfold get_adjacency_list outgoingIds
  cases h : mget st.adj n <;> simp

theorem gal_any (st : St) (n : String) :
    get_adjacency_list st n "any" =
      some ((outgoingIds st n ++ incomingIds st n).dedup) := by
  unfold get_adjacency_list outgoingIds incomingIds
  cases h : mget st.adj n <;> simp

theorem putEdgeAdjStep_edges (st : St) (role : Role) (n i : String) :
    (putEdgeAdjStep st role n i).edges = st.edges := by
  unfold putEdgeAdjStep
  cases mget st.adj n <;> cases role <;> rfl

theorem putEdgeAdjStep_nodes (st : St) (role : Role) (n i : String) :
    (putEdgeAdjStep st role n i).nodes = st.nodes := by
  unfold putEdgeAdjStep
  cases mget st.adj n <;> cases role <;> rfl

theorem putEdgeAdjStep_adj_ne (st : St) (role : Role) {n m : String} (i : String)
    (h : n ≠ m) : mget (putEdgeAdjStep st role n i).adj m = mget st.adj m := by
  unfold putEdgeAdjStep
  cases hm : mget st.adj n <;> cases role <;> simp [mget_mput_ne _ _ h]

theorem outgoingIds_putEdgeAdjStep_source (st : St) (n i : String) :
    outgoingIds (putEdgeAdjStep st .source n i) n = outgoingIds st n ++ [i] := by
  unfold putEdgeAdjStep outgoingIds
  cases hm : mget st.adj n <;> simp [hm, mget_mput_self]

theorem incomingIds_putEdgeAdjStep_source (st : St) (n i : String) :
    incomingIds (putEdgeAdjStep st .source n i) n = incomingIds st n := by
  unfold putEdgeAdjStep incomingIds
  cases hm : mget st.adj n <;> simp [hm, mget_mput_self]

theorem incomingIds_putEdgeAdjStep_target (st : St) (n i : String) :
    incomingIds (putEdgeAdjStep st .target n i) n = incomingIds st n ++ [i] := by
  unfold putEdgeAdjStep incomingIds
  cases hm : mget st.adj n <;> simp [hm, mget_mput_self]

theorem outgoingIds_putEdgeAdjStep_target (st : St) (n i : String) :
    outgoingIds (putEdgeAdjStep st .target n i) n = outgoingIds st n := by
  unfold putEdgeAdjStep outgoingIds
  cases hm : mget st.adj n <;> simp [hm, mget_mput_self]

theorem put_edge_eq_ok (st : St) (e : EdgeD) {s t : String}
    (hs : e.source = some s) (ht : e.target = some t) :
    put_edge st e = .ok (putEdgeAdjStep (putEdgeAdjStep
      { st with edges := mput st.edges e.id ⟨e.id, s, t, e.properties⟩ } .source s e.id)
      .target t e.id) := by
  obtain ⟨i, es, et, p⟩ := e
  simp only [EdgeD.source] at hs
  simp only [EdgeD.target] at ht
  subst hs; subst ht
  rfl

theorem remove_noop_absent (st : St) (n i : String) (h : mget st.adj n = none) :
    remove_edge_from_adjacency st n i = st := by
  unfold remove_edge_from_adjacency get_adjacency_raw
  simp [h]

theorem remove_noop_uncontained (st : St) (n i : String) (a : AdjRec)
    (h : mget st.adj n = some a) (hs : ¬ i ∈ a.source.getD [])
    (ht : ¬ i ∈ a.target.getD []) :
    remove_edge_from_adjacency st n i = st := by
  unfold remove_edge_from_adjacency get_adjacency_raw
  rw [h]
  obtain ⟨sl, tl⟩ := a
  cases sl <;> cases tl <;> simp_all

theorem remove_adj_self (st : St) (n i : String) :
    mget (remove_edge_from_adjacency st n i).adj n =
      (mget st.adj n).map (fun a => eraseAdj a i) := by
  unfold remove_edge_from_adjacency get_adjacency_raw
  cases hm : mget st.adj n with
  | none => simp [hm]
  | some a =>
    obtain ⟨sl, tl⟩ := a
    cases sl with
    | none =>
      cases tl with
      | none => simp [hm, eraseAdj]
      | some lt =>
        by_cases hit : i ∈ lt <;>
          simp [hm, eraseAdj, hit, put_adjacency_list, mget_mput_self,
            List.erase_of_not_mem]
    | some ls =>
      cases tl with
      | none =>
        by_cases his : i ∈ ls <;>
          simp [hm, eraseAdj, his, put_adjacency_list, mget_mput_self,
            List.erase_of_not_mem]
      | some lt =>
        by_cases his : i ∈ ls <;> by_cases hit : i ∈ lt <;>
          simp [hm, eraseAdj, his, hit, put_adjacency_list, mget_mput_self,
            List.erase_of_not_mem]

theorem remove_writes (st : St) (n i : String) (a : AdjRec)
    (h : mget st.adj n = some a)
    (_hc : i ∈ a.source.getD [] ∨ i ∈ a.target.getD []) :
    mget (remove_edge_from_adjacency st n i).adj n = some (eraseAdj a i) := by
  rw [remove_adj_self, h]; rfl

theorem remove_adj_ne (st : St) {n m : String} (i : String) (h : n ≠ m) :
    mget (remove_edge_from_adjacency st n i).adj m = mget st.adj m := by
  unfold remove_edge_from_adjacency get_adjacency_raw
  cases hm : mget st.adj n with
  | none => simp
  | some a =>
    obtain ⟨sl, tl⟩ := a
    cases sl <;> cases tl <;>
      simp [put_adjacency_list, mget_mput_ne _ _ h] <;>
      split_ifs <;> simp [mget_mput_ne _ _ h]

theorem remove_edges_eq (st : St) (n i : String) :
    (remove_edge_from_adjacency st n i).edges = st.edges := by
  unfold remove_edge_from_adjacency get_adjacency_raw
  cases hm : mget st.adj n with
  | none => rfl
  | some a =>
    obtain ⟨sl, tl⟩ := a
    cases sl <;> cases tl <;> simp [put_adjacency_list] <;> split_ifs <;> rfl

theorem outgoingIds_putEdgeAdjStep_ne (st : St) (role : Role) {n m : String}
    (i : String) (h : n ≠ m) :
    outgoingIds (putEdgeAdjStep st role n i) m = outgoingIds st m := by
  unfold outgoingIds
  rw [putEdgeAdjStep_adj_ne st role i h]

theorem incomingIds_putEdgeAdjStep_ne (st : St) (role : Role) {n m : String}
    (i : String) (h : n ≠ m) :
    incomingIds (putEdgeAdjStep st role n i) m = incomingIds st m := by
  unfold incomingIds
  rw [putEdgeAdjStep_adj_ne st role i h]

-- ===================== Claim theorems =====================

/-- C1 is refuted as stated: after recording the single edge e1 from node a
to node b via `put_edge`, `get_adjacency_list(a, 'forward')` is the empty
list and does not contain the edge id — the code returns the `target`-role
list for `forward`, while `put_edge` files the id under the source node's
`source`-role list. -/
theorem C1_counterexample :
    get_adjacency_list stOneEdge "a" "forward" = some [] ∧
    ¬ "e1" ∈ (get_adjacency_list stOneEdge "a" "forward").getD [] := by
  refine ⟨rfl, by decide⟩

/-- C1 (amended): for every stored edge `e` with distinct endpoints recorded
via `put_edge` with adjacency update, `e.id` is a member of
`get_adjacency_list(e.source, 'backward')` and of
`get_adjacency_list(e.target, 'forward')` (the code maps `forward` to the
`target` role and `backward` to the `source` role), and `e.id` is a member of
both `get_adjacency_list(e.source, 'any')` and
`get_adjacency_list(e.target, 'any')`. -/
theorem C1_adjacency_membership (st st' : St) (e : EdgeD) (s t : String)
    (hs : e.source = some s) (ht : e.target = some t) (hne : s ≠ t)
    (hok : put_edge st e = .ok st') :
    e.id ∈ (get_adjacency_list st' s "backward").getD [] ∧
    e.id ∈ (get_adjacency_list st' t "forward").getD [] ∧
    e.id ∈ (get_adjacency_list st' s "any").getD [] ∧
    e.id ∈ (get_adjacency_list st' t "any").getD [] := by
  rw [put_edge_eq_ok st e hs ht] at hok
  injection hok with hok
  subst hok
  have hout : e.id ∈ outgoingIds (putEdgeAdjStep (putEdgeAdjStep
      { st with edges := mput st.edges e.id ⟨e.id, s, t, e.properties⟩ } .source s e.id)
      .target t e.id) s := by
    rw [outgoingIds_putEdgeAdjStep_ne _ _ _ (Ne.symm hne),
      outgoingIds_putEdgeAdjStep_source]
    simp
  have hinc : e.id ∈ incomingIds (putEdgeAdjStep (putEdgeAdjStep
      { st with edges := mput st.edges e.id ⟨e.id, s, t, e.properties⟩ } .source s e.id)
      .target t e.id) t := by
    rw [incomingIds_putEdgeAdjStep_target]
    simp
  refine ⟨?_, ?_, ?_, ?_⟩
  · rw [gal_backward]; simpa using hout
  · rw [gal_forward]; simpa using hinc
  · rw [gal_any]; simp [List.mem_dedup]; exact Or.inl hout
  · rw [gal_any]; simp [List.mem_dedup]; exact Or.inr hinc

/-- C1 (amended) witness: the single recorded edge e1 from a to b is found
under `backward` at a, `forward` at b, and `any` at both. -/
theorem C1_witness :
    "e1" ∈ (get_adjacency_list stOneEdge "a" "backward").getD [] ∧
    "e1" ∈ (get_adjacency_list stOneEdge "b" "forward").getD [] ∧
    "e1" ∈ (get_adjacency_list stOneEdge "a" "any").getD [] ∧
    "e1" ∈ (get_adjacency_list stOneEdge "b" "any").getD [] :=
  C1_adjacency_membership emptySt stOneEdge edgeAB "a" "b" rfl rfl
    (by decide) (by rfl)

/-- C2 is refuted on the code (bulk/sequential equivalence): starting from
the store already holding edge e1 out of node a, `put_edges_bulk` of the
single further edge e2 out of a raises (`AttributeError`: the deserialized
adjacency lists are Python lists, which have no `union`), persisting the
edge record but leaving the adjacency index untouched, while the sequential
`put_edge` of the same edge succeeds and indexes e2 under a. -/
theorem C2_bulk_raises_on_existing_adjacency :
    raised (put_edges_bulk stOneEdge [edgeAC]) = true ∧
    raised (put_edge stOneEdge edgeAC) = false ∧
    ¬ "e2" ∈ outgoingIds (runOp stOneEdge (.opPutEdgesBulk [edgeAC])) "a" ∧
    "e2" ∈ outgoingIds (runOp stOneEdge (.opPutEdge edgeAC)) "a" ∧
    mget (runOp stOneEdge (.opPutEdgesBulk [edgeAC])).edges "e2" =
      some ⟨"e2", "a", "c", []⟩ := by
  refine ⟨rfl, rfl, by decide, by decide, rfl⟩

/-- C3 is refuted on the code: after the operation sequence `put_edge(e1)`
(edge a→b) followed by `put_edges_bulk([e2])` (edge a→c), the bulk call has
raised midway — edge e2 is persisted in the edge store, but its id is absent
from the outgoing list of node a's adjacency record, violating the
adjacency invariant. -/
theorem C3_invariant_violated :
    mget (runOps emptySt [.opPutEdge edgeAB, .opPutEdgesBulk [edgeAC]]).edges "e2" =
      some ⟨"e2", "a", "c", []⟩ ∧
    ¬ "e2" ∈ outgoingIds (runOps emptySt [.opPutEdge edgeAB, .opPutEdgesBulk [edgeAC]]) "a" ∧
    ¬ adjInvariant (runOps emptySt [.opPutEdge edgeAB, .opPutEdgesBulk [edgeAC]]) := by
  refine ⟨rfl, by decide, ?_⟩
  intro h
  have hmem := (h "e2" ⟨"e2", "a", "c", []⟩ rfl).1
  revert hmem
  decide

/-- C4 is refuted on the code: `update_node` on a missing id does synthesize
a node with the requested id and properties `merge_fn(\x7b\x7d, data)` and persist
it, but `update_edge` on a missing id raises (`AttributeError`: the
placeholder edge has `None` endpoints and `Edge.to_dict` calls
`None.get_id`), leaving the store unchanged instead of persisting a
placeholder edge. -/
theorem C4_update_edge_raises :
    update_edge emptySt "x" [("k", "v")] (fun _ d => d) = .error emptySt ∧
    (update_node emptySt "x" [("k", "v")] (fun _ d => d)).2 = ⟨"x", [("k", "v")]⟩ ∧
    get_node (update_node emptySt "x" [("k", "v")] (fun _ d => d)).1 "x" =
      some ⟨"x", [("k", "v")]⟩ := by
  exact ⟨rfl, rfl, rfl⟩

/-- C6 is refuted as stated: in the store where edge e1 (a→b) was recorded
twice, the adjacency lists hold its id twice; `delete_edge` removes only the
first occurrence (Python `list.remove`), so the id is still present in node
a's outgoing list afterwards, although `get_edge` does return absent. -/
theorem C6_counterexample :
    get_edge (delete_edge stDup "e1") "e1" = none ∧
    "e1" ∈ outgoingIds (delete_edge stDup "e1") "a" ∧
    "e1" ∈ incomingIds (delete_edge stDup "e1") "b" := by
  refine ⟨rfl, by decide, by decide⟩

/-- C6 (amended): `delete_edge` on an id with no stored edge is a no-op on
the whole store; on a stored edge it removes the *first* occurrence of the
id from each role list of both endpoints' adjacency records (touching the
shared record exactly once when source equals target), leaves all other
adjacency records and edge records unchanged, deletes the edge record, and
a subsequent `get_edge` returns absent. -/
theorem C6_delete_edge (st : St) (i : String) :
    (mget st.edges i = none → delete_edge st i = st) ∧
    (∀ r, mget st.edges i = some r →
      get_edge (delete_edge st i) i = none ∧
      mget (delete_edge st i).adj r.source =
        (mget st.adj r.source).map (fun a => eraseAdj a i) ∧
      mget (delete_edge st i).adj r.target =
        (mget st.adj r.target).map (fun a => eraseAdj a i) ∧
      (∀ n, n ≠ r.source → n ≠ r.target →
        mget (delete_edge st i).adj n = mget st.adj n) ∧
      (∀ j, j ≠ i → mget (delete_edge st i).edges j = mget st.edges j)) := by
  constructor
  · intro h
    unfold delete_edge
    rw [h]
  · intro r hr
    have hst : delete_edge st i =
        { (if r.target ≠ r.source then
            remove_edge_from_adjacency (remove_edge_from_adjacency st r.source i) r.target i
          else remove_edge_from_adjacency st r.source i) with
          edges := mdel (if r.target ≠ r.source then
            remove_edge_from_adjacency (remove_edge_from_adjacency st r.source i) r.target i
          else remove_edge_from_adjacency st r.source i).edges i } := by
      unfold delete_edge
      rw [hr]
    by_cases hts : r.target = r.source
    · have hst' : delete_edge st i =
          { remove_edge_from_adjacency st r.source i with
            edges := mdel (remove_edge_from_adjacency st r.source i).edges i } := by
        rw [hst]; simp [hts]
      refine ⟨?_, ?_, ?_, ?_, ?_⟩
      · unfold get_edge
        rw [hst']
        simp [mget_mdel_self]
      · rw [hst']
        exact remove_adj_self st r.source i
      · rw [hst', hts]
        exact remove_adj_self st r.source i
      · intro n hn1 _
        rw [hst']
        exact remove_adj_ne st i (Ne.symm hn1)
      · intro j hj
        rw [hst']
        show mget (mdel (remove_edge_from_adjacency st r.source i).edges i) j = _
        rw [mget_mdel_ne _ (Ne.symm hj), remove_edges_eq]
    · have hst' : delete_edge st i =
          { remove_edge_from_adjacency (remove_edge_from_adjacency st r.source i) r.target i with
            edges := mdel (remove_edge_from_adjacency
              (remove_edge_from_adjacency st r.source i) r.target i).edges i } := by
        rw [hst]; simp [hts]
      refine ⟨?_, ?_, ?_, ?_, ?_⟩
      · unfold get_edge
        rw [hst']
        simp [mget_mdel_self]
      · rw [hst']
        show mget (remove_edge_from_adjacency (remove_edge_from_adjacency st r.source i)
          r.target i).adj r.source = _
        rw [remove_adj_ne _ i hts, remove_adj_self]
      · rw [hst']
        show mget (remove_edge_from_adjacency (remove_edge_from_adjacency st r.source i)
          r.target i).adj r.target = _
        rw [remove_adj_self, remove_adj_ne st i (fun h => hts h.symm)]
      · intro n hn1 hn2
        rw [hst']
        show mget (remove_edge_from_adjacency (remove_edge_from_adjacency st r.source i)
          r.target i).adj n = _
        rw [remove_adj_ne _ i (Ne.symm hn2), remove_adj_ne _ i (Ne.symm hn1)]
      · intro j hj
        rw [hst']
        show mget (mdel (remove_edge_from_adjacency (remove_edge_from_adjacency st r.source i)
          r.target i).edges i) j = _
        rw [mget_mdel_ne _ (Ne.symm hj), remove_edges_eq, remove_edges_eq]

/-- C6 (amended) witness: deleting an absent id is a no-op on the concrete
one-edge store, and deleting e1 there empties node a's record of it and
makes `get_edge` return absent. -/
theorem C6_witness :
    delete_edge stOneEdge "zz" = stOneEdge ∧
    get_edge (delete_edge stOneEdge "e1") "e1" = none ∧
    mget (delete_edge stOneEdge "e1").adj "a" =
      (mget stOneEdge.adj "a").map (fun a => eraseAdj a "e1") := by
  have h1 := (C6_delete_edge stOneEdge "zz").1 (by rfl)
  have h2 := (C6_delete_edge stOneEdge "e1").2 ⟨"e1", "a", "b", []⟩ (by rfl)
  exact ⟨h1, h2.1, h2.2.1⟩

/-- C7 is confirmed: `_remove_edge_from_adjacency` is the identity on the
whole store when the endpoint's adjacency record is absent or contains the
edge id in neither role list (nothing is written back), and when the id is
contained it writes back the record with the id removed from each role
list. -/
theorem C7_remove_frame (st : St) (n i : String) :
    (mget st.adj n = none → remove_edge_from_adjacency st n i = st) ∧
    (∀ a, mget st.adj n = some a → ¬ i ∈ a.source.getD [] → ¬ i ∈ a.target.getD [] →
      remove_edge_from_adjacency st n i = st) ∧
    (∀ a, mget st.adj n = some a → (i ∈ a.source.getD [] ∨ i ∈ a.target.getD []) →
      mget (remove_edge_from_adjacency st n i).adj n = some (eraseAdj a i)) :=
  ⟨remove_noop_absent st n i,
   fun a h hs ht => remove_noop_uncontained st n i a h hs ht,
   fun a h hc => remove_writes st n i a h hc⟩

/-- C7 witness: on the concrete one-edge store, removal at an unindexed node
and removal of an uncontained id both leave the store untouched, and removal
of the contained id e1 writes the emptied record back. -/
theorem C7_witness :
    remove_edge_from_adjacency stOneEdge "zz" "e1" = stOneEdge ∧
    remove_edge_from_adjacency stOneEdge "a" "nope" = stOneEdge ∧
    mget (remove_edge_from_adjacency stOneEdge "a" "e1").adj "a" =
      some (eraseAdj ⟨some ["e1"], none⟩ "e1") := by
  refine ⟨(C7_remove_frame stOneEdge "zz" "e1").1 (by rfl),
    (C7_remove_frame stOneEdge "a" "nope").2.1 ⟨some ["e1"], none⟩ (by rfl)
      (by decide) (by decide),
    (C7_remove_frame stOneEdge "a" "e1").2.2 ⟨some ["e1"], none⟩ (by rfl)
      (by decide)⟩

/-- C8 is confirmed: `get_node` after `put_node` returns the stored node
itself, and `get_edge` after a successful `put_edge` returns an edge equal
to the stored one on id, source, target and properties (the codec is an
inverse pair by contract, spec section 4.1). -/
theorem C8_round_trip :
    (∀ (st : St) (x : NodeD), get_node (put_node st x) x.id = some x) ∧
    (∀ (st st' : St) (e : EdgeD) (s t : String), e.source = some s →
      e.target = some t → put_edge st e = .ok st' →
      get_edge st' e.id = some e) := by
  constructor
  · intro st x
    unfold get_node put_node
    exact mget_mput_self st.nodes x.id x
  · intro st st' e s t hs ht hok
    rw [put_edge_eq_ok st e hs ht] at hok
    injection hok with hok
    subst hok
    unfold get_edge
    rw [putEdgeAdjStep_edges, putEdgeAdjStep_edges]
    show (mget (mput st.edges e.id ⟨e.id, s, t, e.properties⟩) e.id).map _ = _
    rw [mget_mput_self]
    obtain ⟨i, es, et, p⟩ := e
    simp only [EdgeD.source] at hs
    simp only [EdgeD.target] at ht
    subst hs; subst ht
    rfl

/-- C8 witness: round trip of a concrete node and of the concrete edge e1
through the store. -/
theorem C8_witness :
    get_node (put_node emptySt ⟨"n1", [("p", "q")]⟩) "n1" =
      some ⟨"n1", [("p", "q")]⟩ ∧
    get_edge stOneEdge "e1" = some edgeAB := by
  refine ⟨C8_round_trip.1 emptySt ⟨"n1", [("p", "q")]⟩, ?_⟩
  exact C8_round_trip.2 emptySt stOneEdge edgeAB "a" "b" rfl rfl (by rfl)

/-- C9 is confirmed: `get_adjacency_list(n, 'any')` always returns a
duplicate-free list, while `forward` and `backward` on a stored record
return the stored `target` and `source` role lists verbatim, duplicates
included. -/
theorem C9_any_nodup (st : St) (n : String) :
    (∃ l, get_adjacency_list st n "any" = some l ∧ l.Nodup) ∧
    (∀ a, mget st.adj n = some a →
      get_adjacency_list st n "forward" = some (a.target.getD []) ∧
      get_adjacency_list st n "backward" = some (a.source.getD [])) := by
  constructor
  · exact ⟨_, gal_any st n, List.nodup_dedup _⟩
  · intro a h
    unfold get_adjacency_list
    rw [h]
    exact ⟨rfl, rfl⟩

/-- C9 witness: in the store where e1 was recorded twice, node a's stored
outgoing list holds the id twice, `backward` returns it verbatim with the
duplicate, `forward` returns the (empty) stored list, and `any` is
duplicate-free. -/
theorem C9_witness :
    mget stDup.adj "a" = some ⟨some ["e1", "e1"], none⟩ ∧
    get_adjacency_list stDup "a" "backward" = some ["e1", "e1"] ∧
    get_adjacency_list stDup "a" "forward" = some [] ∧
    (∃ l, get_adjacency_list stDup "a" "any" = some l ∧ l.Nodup) := by
  have h := C9_any_nodup stDup "a"
  have h2 := h.2 ⟨some ["e1", "e1"], none⟩ (by rfl)
  exact ⟨rfl, h2.2, h2.1, h.1⟩

/-- C10 is confirmed: for a direction string outside forward/backward/any,
`get_adjacency_list` returns Python `None` when the node has a stored
adjacency record, and returns the empty list exactly when the record is
absent. -/
theorem C10_invalid_direction (st : St) (n d : String)
    (h1 : d ≠ "forward") (h2 : d ≠ "backward") (h3 : d ≠ "any") :
    ((mget st.adj n).isSome → get_adjacency_list st n d = none) ∧
    (mget st.adj n = none → get_adjacency_list st n d = some []) := by
  constructor
  · intro hs
    obtain ⟨a, ha⟩ := Option.isSome_iff_exists.mp hs
    unfold get_adjacency_list
    rw [ha]
    simp [h1, h2, h3]
  · intro h
    unfold get_adjacency_list
    rw [h]

/-- C10 witness: the unrecognized direction string `up` yields `None` at the
indexed node a of the one-edge store and the empty list at the unindexed
node zz. -/
theorem C10_witness :
    get_adjacency_list stOneEdge "a" "up" = none ∧
    get_adjacency_list stOneEdge "zz" "up" = some [] := by
  refine ⟨(C10_invalid_direction stOneEdge "a" "up" (by decide) (by decide)
    (by decide)).1 (by rfl), ?_⟩
  exact (C10_invalid_direction stOneEdge "zz" "up" (by decide) (by decide)
    (by decide)).2 (by rfl)

theorem mget_eq_none_iff {α : Type} (m : List (String × α)) (k : String) :
    mget m k = none ↔ ¬ k ∈ m.map Prod.fst := by
  induction m with
  | nil => simp [mget]
  | cons p r ih =>
    by_cases h : p.1 = k
    · simp [mget, h]
    · simp [mget, h, ih, Ne.symm h]

theorem mem_adjKeys_iff (st : St) (n : String) :
    n ∈ adjKeys st ↔ ¬ mget st.adj n = none := by
  unfold adjKeys
  rw [List.mem_dedup, mget_eq_none_iff]
  tauto

theorem gal_valid_isSome (st : St) (n d : String)
    (hd : d = "forward" ∨ d = "backward" ∨ d = "any") :
    ∃ l, get_adjacency_list st n d = some l := by
  unfold get_adjacency_list
  cases mget st.adj n with
  | none => exact ⟨[], rfl⟩
  | some a => rcases hd with rfl | rfl | rfl <;> simp

theorem gal_absent (st : St) (n d : String) (h : mget st.adj n = none) :
    get_adjacency_list st n d = some [] := by
  unfold get_adjacency_list
  rw [h]

theorem adjLen_eq (st : St) (n d : String) {l : List String}
    (h : get_adjacency_list st n d = some l) : adjLen st d n = l.length := by
  unfold adjLen
  rw [h]
  rfl

theorem length_bfsExpand_le (st : St) (current : String) (v' el : List String) :
    (bfsExpand st current v' el).length ≤ el.length :=
  List.length_filterMap_le _ _

theorem mem_bfsExpand_iff (st : St) (current : String) (v' el : List String)
    (y : String) :
    y ∈ bfsExpand st current v' el ↔
      (y ∈ el.filterMap (fun eId => (mget st.edges eId).map (fun er =>
        if er.source = current then er.target else er.source)) ∧ ¬ y ∈ v') := by
  unfold bfsExpand
  simp only [List.mem_filterMap]
  constructor
  · rintro ⟨eId, hin, heq⟩
    cases hmg : mget st.edges eId with
    | none => rw [hmg] at heq; cases heq
    | some er =>
      rw [hmg] at heq
      dsimp only at heq
      by_cases hnb : (if er.source = current then er.target else er.source) ∈ v'
      · rw [if_pos hnb] at heq
        cases heq
      · rw [if_neg hnb] at heq
        injection heq with heq
        subst heq
        exact ⟨⟨eId, hin, by rw [hmg]; rfl⟩, hnb⟩
  · rintro ⟨⟨eId, hin, heq⟩, hnv⟩
    cases hmg : mget st.edges eId with
    | none => rw [hmg] at heq; cases heq
    | some er =>
      rw [hmg] at heq
      injection heq with heq
      simp only at heq
      refine ⟨eId, hin, ?_⟩
      rw [hmg]
      dsimp only
      rw [heq, if_neg hnv]

theorem mem_bfsExpand_iff_nbrs (st : St) (current d : String) (v' el : List String)
    (hel : get_adjacency_list st current d = some el) (y : String) :
    y ∈ bfsExpand st current v' el ↔
      (y ∈ bfsNeighbors st d current ∧ ¬ y ∈ v') := by
  rw [mem_bfsExpand_iff]
  unfold bfsNeighbors
  rw [hel]
  simp
theorem sum_filter_cons_mem (l v : List String) (c : String) (f : String → Nat)
    (hnd : l.Nodup) (hcl : c ∈ l) (hcv : ¬ c ∈ v) :
    ((l.filter (fun n => ¬ n ∈ v)).map f).sum =
      f c + ((l.filter (fun n => ¬ n ∈ c :: v)).map f).sum := by
  have h1 : l.filter (fun n => ¬ n ∈ c :: v) =
      (l.filter (fun n => ¬ n ∈ v)).erase c := by
    rw [List.Nodup.erase_eq_filter (hnd.filter _), List.filter_filter]
    apply List.filter_congr
    intro x _
    by_cases h1 : x = c <;> by_cases h2 : x ∈ v <;> simp [h1, h2]
  have hcL : c ∈ l.filter (fun n => ¬ n ∈ v) := by
    rw [List.mem_filter]
    exact ⟨hcl, by simpa using hcv⟩
  have hperm := List.perm_cons_erase hcL
  have := (hperm.map f).sum_eq
  rw [this, List.map_cons, List.sum_cons, h1]

theorem sum_filter_cons_not_mem (l v : List String) (c : String) (f : String → Nat)
    (hcl : ¬ c ∈ l) :
    ((l.filter (fun n => ¬ n ∈ c :: v)).map f).sum =
      ((l.filter (fun n => ¬ n ∈ v)).map f).sum := by
  have h1 : l.filter (fun n => ¬ n ∈ c :: v) = l.filter (fun n => ¬ n ∈ v) := by
    apply List.filter_congr
    intro x hx
    have : x ≠ c := fun h => hcl (h ▸ hx)
    simp [this]
  rw [h1]

theorem ReachVQ_mono (st : St) (d : String) {v q v' q' : List String}
    (hv : ∀ x, x ∈ v → x ∈ v') (hq : ∀ x, x ∈ q → x ∈ v' ∨ x ∈ q') {n : String}
    (h : ReachVQ st d v q n) : ReachVQ st d v' q' n := by
  induction h with
  | base_vis hx => exact .base_vis (hv _ hx)
  | base_frontier hx =>
    rcases hq _ hx with h1 | h1
    · exact .base_vis h1
    · exact .base_frontier h1
  | step _ hy ih => exact .step ih hy

theorem ReachVQ_closed_elim (st : St) (d : String) {v : List String}
    (hcl : ∀ x, x ∈ v → ∀ y, y ∈ bfsNeighbors st d x → y ∈ v) {n : String}
    (h : ReachVQ st d v [] n) : n ∈ v := by
  induction h with
  | base_vis hx => exact hx
  | base_frontier hx => cases hx
  | step _ hy ih => exact hcl _ ih _ hy

theorem ReachVQ_skip (st : St) (d : String) {v rest : List String}
    {current : String} (hvis : current ∈ v) (n : String) :
    ReachVQ st d v (current :: rest) n ↔ ReachVQ st d v rest n := by
  constructor
  · intro h
    induction h with
    | base_vis hx => exact .base_vis hx
    | base_frontier hx =>
      rcases List.mem_cons.mp hx with h1 | h1
      · exact .base_vis (h1 ▸ hvis)
      · exact .base_frontier h1
    | step _ hy ih => exact .step ih hy
  · intro h
    exact ReachVQ_mono st d (fun x hx => hx)
      (fun x hx => Or.inr (List.mem_cons_of_mem _ hx)) h

theorem ReachVQ_pop (st : St) (d : String) {v rest nbrs : List String}
    {current : String}
    (hnn : ∀ y, y ∈ nbrs → y ∈ bfsNeighbors st d current) (n : String) :
    ReachVQ st d v (current :: rest) n ↔
      ReachVQ st d (current :: v) (rest ++ nbrs) n := by
  constructor
  · intro h
    induction h with
    | base_vis hx => exact .base_vis (List.mem_cons_of_mem _ hx)
    | base_frontier hx =>
      rcases List.mem_cons.mp hx with h1 | h1
      · exact .base_vis (h1 ▸ List.mem_cons_self _ _)
      · exact .base_frontier (List.mem_append_left _ h1)
    | step _ hy ih => exact .step ih hy
  · intro h
    induction h with
    | base_vis hx =>
      rcases List.mem_cons.mp hx with h1 | h1
      · exact .base_frontier (h1 ▸ List.mem_cons_self _ _)
      · exact .base_vis h1
    | base_frontier hx =>
      rcases List.mem_append.mp hx with h1 | h1
      · exact .base_frontier (List.mem_cons_of_mem _ h1)
      · exact .step (.base_frontier (List.mem_cons_self _ _)) (hnn _ h1)
    | step _ hy ih => exact .step ih hy

theorem bfsAux_correct (st : St) (d : String)
    (hd : d = "forward" ∨ d = "backward" ∨ d = "any") :
    ∀ (fuel : Nat) (q v acc : List String),
      bfsMeasure st d q v < fuel →
      (∀ x, x ∈ acc ↔ x ∈ v) →
      acc.Nodup →
      (∀ x, x ∈ v → ∀ y, y ∈ bfsNeighbors st d x → y ∈ v ∨ y ∈ q) →
      ∃ l, bfsAux st d fuel q v acc = .res l ∧ l.Nodup ∧
        (∀ n, n ∈ l ↔ ReachVQ st d v q n) := by
  intro fuel
  induction fuel with
  | zero =>
    intro q v acc hm _ _ _
    exact absurd hm (Nat.not_lt_zero _)
  | succ fuel ih =>
    intro q v acc hm hav hnd hcl
    cases q with
    | nil =>
      refine ⟨acc, rfl, hnd, fun n => ?_⟩
      constructor
      · intro hn
        exact .base_vis ((hav n).mp hn)
      · intro hn
        refine (hav n).mpr (ReachVQ_closed_elim st d ?_ hn)
        intro x hx y hy
        rcases hcl x hx y hy with h1 | h1
        · exact h1
        · cases h1
    | cons current rest =>
      by_cases hvis : current ∈ v
      · have hstep : bfsAux st d (fuel + 1) (current :: rest) v acc =
            bfsAux st d fuel rest v acc := by
          simp only [bfsAux, if_pos hvis]
        have hm' : bfsMeasure st d rest v < fuel := by
          unfold bfsMeasure at hm ⊢
          rw [List.length_cons] at hm
          omega
        have hcl' : ∀ x, x ∈ v → ∀ y, y ∈ bfsNeighbors st d x → y ∈ v ∨ y ∈ rest := by
          intro x hx y hy
          rcases hcl x hx y hy with h1 | h1
          · exact Or.inl h1
          · rcases List.mem_cons.mp h1 with h2 | h2
            · exact Or.inl (h2 ▸ hvis)
            · exact Or.inr h2
        obtain ⟨l, hres, hndl, hchar⟩ := ih rest v acc hm' hav hnd hcl'
        refine ⟨l, by rw [hstep]; exact hres, hndl, fun n => ?_⟩
        rw [hchar n]
        exact (ReachVQ_skip st d hvis n).symm
      · obtain ⟨el, hel⟩ := gal_valid_isSome st current d hd
        have hstep : bfsAux st d (fuel + 1) (current :: rest) v acc =
            bfsAux st d fuel
              (rest ++ bfsExpand st current (current :: v) el)
              (current :: v) (acc ++ [current]) := by
          simp only [bfsAux, if_neg hvis, hel]
        have hlen : (bfsExpand st current (current :: v) el).length ≤ adjLen st d current := by
          rw [adjLen_eq st current d hel]
          exact length_bfsExpand_le st current (current :: v) el
        have hm' : bfsMeasure st d
            (rest ++ bfsExpand st current (current :: v) el) (current :: v) < fuel := by
          by_cases hkey : current ∈ adjKeys st
          · have hsum := sum_filter_cons_mem (adjKeys st) v current (adjLen st d)
              (List.nodup_dedup _) hkey hvis
            unfold bfsMeasure at hm ⊢
            unfold adjKeys at hsum
            rw [List.length_cons] at hm
            rw [List.length_append]
            unfold adjKeys at *
            omega
          · have hmn : mget st.adj current = none := by
              have h1 := mem_adjKeys_iff st current
              tauto
            have hel0 : el = [] := by
              have h2 := gal_absent st current d hmn
              rw [hel] at h2
              injection h2 with h2
            have hsum := sum_filter_cons_not_mem (adjKeys st) v current (adjLen st d) hkey
            subst hel0
            unfold bfsMeasure at hm ⊢
            unfold adjKeys at hsum ⊢
            rw [List.length_cons] at hm
            rw [List.length_append]
            have hexp : (bfsExpand st current (current :: v) []).length = 0 := rfl
            unfold adjKeys at *
            omega
        have hnacc : ¬ current ∈ acc := fun h => hvis ((hav current).mp h)
        have hav' : ∀ x, x ∈ acc ++ [current] ↔ x ∈ current :: v := by
          intro x
          rw [List.mem_append, List.mem_singleton, List.mem_cons, hav x]
          tauto
        have hnd' : (acc ++ [current]).Nodup := by
          rw [List.nodup_append]
          refine ⟨hnd, List.nodup_singleton _, ?_⟩
          intro a ha hb
          rw [List.mem_singleton] at hb
          exact hnacc (hb ▸ ha)
        have hcl' : ∀ x, x ∈ current :: v → ∀ y, y ∈ bfsNeighbors st d x →
            y ∈ current :: v ∨ y ∈ rest ++ bfsExpand st current (current :: v) el := by
          intro x hx y hy
          rcases List.mem_cons.mp hx with rfl | hxv
          · by_cases hyv : y ∈ x :: v
            · exact Or.inl hyv
            · refine Or.inr (List.mem_append_right _ ?_)
              exact (mem_bfsExpand_iff_nbrs st x d (x :: v) el hel y).mpr ⟨hy, hyv⟩
          · rcases hcl x hxv y hy with h1 | h1
            · exact Or.inl (List.mem_cons_of_mem _ h1)
            · rcases List.mem_cons.mp h1 with rfl | h2
              · exact Or.inl (List.mem_cons_self _ _)
              · exact Or.inr (List.mem_append_left _ h2)
        obtain ⟨l, hres, hndl, hchar⟩ := ih
          (rest ++ bfsExpand st current (current :: v) el) (current :: v)
          (acc ++ [current]) hm' hav' hnd' hcl'
        refine ⟨l, by rw [hstep]; exact hres, hndl, fun n => ?_⟩
        rw [hchar n]
        exact (ReachVQ_pop st d (fun y hy =>
          ((mem_bfsExpand_iff_nbrs st current d (current :: v) el hel y).mp hy).1) n).symm

/-- C5 is confirmed for the three recognized directions: `bfs` terminates
with a result list (never exhausts its fuel bound and never errors), the
list is duplicate-free (each node exactly once), and its members are exactly
the nodes reachable from the start node under the traversal step relation —
which itself skips silently over adjacency entries whose edge record is
missing.  (For an unrecognized direction string the Python code would raise
`TypeError` iterating `None`, so the claim's `direction` ranges over the
three traversal modes of the spec's glossary.) -/
theorem C5_bfs_reachability (st : St) (start d : String)
    (hd : d = "forward" ∨ d = "backward" ∨ d = "any") :
    ∃ l, bfs st start d = .res l ∧ l.Nodup ∧
      (∀ n, n ∈ l ↔ Reachable st d start n) := by
  unfold bfs Reachable
  exact bfsAux_correct st d hd (bfsMeasure st d [start] [] + 1) [start] [] []
    (Nat.lt_succ_self _) (fun x => Iff.rfl) List.nodup_nil
    (fun x hx => absurd hx (List.not_mem_nil x))

/-- C5 witness: on the concrete triangle store (edges a→b, b→c, a→c),
`bfs(a, 'any')` evaluates to exactly the duplicate-free list of the three
reachable nodes and the theorem instantiates to it; on the store whose
adjacency still dangles on the deleted edge e1 (recorded twice, deleted
once), `bfs` silently skips the dangling entry and returns without error. -/
theorem C5_witness :
    bfs stTriangle "a" "any" = .res ["a", "b", "c"] ∧
    "e1" ∈ outgoingIds (delete_edge stDup "e1") "a" ∧
    get_edge (delete_edge stDup "e1") "e1" = none ∧
    bfs (delete_edge stDup "e1") "a" "any" = .res ["a"] ∧
    (∃ l, bfs stTriangle "a" "any" = .res l ∧ l.Nodup ∧
      (∀ n, n ∈ l ↔ Reachable stTriangle "any" "a" n)) :=
  ⟨rfl, by decide, rfl, rfl,
   C5_bfs_reachability stTriangle "a" "any" (Or.inr (Or.inr rfl))⟩
